import Mathlib

/-!
Shallow embedding of `wordle_solver.py`, a CLI solver for the Russian
five-letter word game.  Words are modelled as `List Char` (Python `str`),
feedback strings as `List Char` over `'0'`,`'1'`,`'2'`, and the simulated
feedback patterns (Python `int` lists) as `List Nat`.  The dictionary file
is modelled as its list of lines.
-/

namespace WordleSolver

abbrev Word := List Char

/-- The set `NORMALIZED_RUSSIAN` from the source (the doubled `е` reflects the
source string, where `ё` was already folded to `е`). -/
def NORMALIZED_RUSSIAN : List Char := "абвгдеежзийклмнопрстуфхцчшщъыьэюя".toList

/-- Lower-casing as Python `str.lower` acts on the characters this program
handles: ASCII (via `Char.toLower`) plus the Cyrillic block А..Я and Ё. -/
def lowerChar (c : Char) : Char :=
  if 'А' ≤ c && c ≤ 'Я' then Char.ofNat (c.toNat + 32)
  else if c = 'Ё' then 'ё'
  else c.toLower

/-- Python `str.strip`: drop leading and trailing whitespace. -/
def stripWs (s : Word) : Word :=
  ((s.dropWhile Char.isWhitespace).reverse.dropWhile Char.isWhitespace).reverse

/-- `normalize_word`: strip, lower, fold `ё` to `е`, drop hyphens and spaces.
The two `str.replace` calls that delete `-` and a space are a single filter
(deleting characters one kind at a time equals deleting both kinds at once). -/
def normalize_word (word : Word) : Word :=
  ((((stripWs word).map lowerChar).map
      (fun c => if c = 'ё' then 'е' else c)).filter
      (fun c => !(c = '-' || c = ' ')))

/-- The regex `^[а-я]{5}$` with `re.IGNORECASE`: exactly five characters, each
in а..я or А..Я (`ё` is outside the а-я code-point range and is not matched). -/
def cyrillic5Match (w : Word) : Bool :=
  w.length = 5 && w.all (fun c => ('а' ≤ c && c ≤ 'я') || ('А' ≤ c && c ≤ 'Я'))

/-- `is_valid_five_letter_word`. -/
def is_valid_five_letter_word (word : Word) : Bool :=
  if word = [] then false
  else
    let normalized_word := normalize_word word
    cyrillic5Match normalized_word &&
      normalized_word.all (fun ch => ch ∈ NORMALIZED_RUSSIAN)

/-- `get_nouns`, modelled on the file's lines: normalize each line, keep the
valid ones, deduplicate (Python collects into a `set`) and sort.  Python's
`sorted` and `insertionSort` agree on a list of distinct elements under the
linear (code-point lexicographic) order on strings. -/
def get_nouns (lines : List Word) : List Word :=
  List.insertionSort (· ≤ ·)
    (((lines.map normalize_word).filter
      (fun w => is_valid_five_letter_word w)).dedup)

/-- `add_word_to_dict`, with the dictionary file modelled by its lines.
Returns the Python result together with the file lines after the call
(`write_words_atomic` replaces the file's lines by the word list). -/
def add_word_to_dict (word : Word) (fileLines : List Word) :
    Bool × List Word :=
  let w := normalize_word word
  if !(is_valid_five_letter_word w) then (false, fileLines)
  else
    let words := get_nouns fileLines
    if w ∈ words then (true, fileLines)
    else (true, List.insertionSort (· ≤ ·) ((words ++ [w]).dedup))

/-! ### CandidateFilter: `filter_words` -/

/-- The `required_counts` dictionary, read at `letter` (`.get(letter, 0)`):
occurrences of `letter` in the guess whose feedback mark is `'1'` or `'2'`. -/
def required_counts (guess feedback : List Char) (letter : Char) : Nat :=
  ((guess.zip feedback).filter
    (fun p => p.1 = letter && (p.2 = '1' || p.2 = '2'))).length

/-- First per-position loop of `filter_words`: a `'2'` slot must repeat the
guess letter, a `'1'` slot must not.  Python indexes positions `0..4`;
`getD` makes the lookups total (the program only uses 5-letter strings). -/
def passes_position_checks (guess feedback word : Word) : Bool :=
  (List.range 5).all fun i =>
    if feedback.getD i ' ' = '2' then word.getD i ' ' = guess.getD i ' '
    else if feedback.getD i ' ' = '1' then !(word.getD i ' ' = guess.getD i ' ')
    else true

/-- Second loop: each `'1'` slot's guess letter must occur in the word. -/
def passes_presence_checks (guess feedback word : Word) : Bool :=
  (List.range 5).all fun i =>
    if feedback.getD i ' ' = '1' then word.contains (guess.getD i ' ')
    else true

/-- Third loop: for each `'0'` slot with guess letter `L`, the word may hold
at most `required_counts L` copies of `L`. -/
def passes_count_checks (guess feedback word : Word) : Bool :=
  (List.range 5).all fun i =>
    if feedback.getD i ' ' = '0' then
      word.count (guess.getD i ' ') ≤ required_counts guess feedback (guess.getD i ' ')
    else true

/-- The body of `filter_words`' word loop: `continue` on the guess itself,
then the three check loops in source order. -/
def keeps_word (guess feedback word : Word) : Bool :=
  !(word = guess) &&
    passes_position_checks guess feedback word &&
    passes_presence_checks guess feedback word &&
    passes_count_checks guess feedback word

/-- `filter_words` appends, in input order, every word passing all checks. -/
def filter_words (words : List Word) (guess : Word) (feedback : List Char) :
    List Word :=
  words.filter (fun word => keeps_word guess feedback word)

/-! ### FeedbackSimulator and scoring: `evaluate_word` -/

/-- `target_letters[target_letters.index(c)] = None`: blank the first
occurrence of `c` among the unconsumed target letters. -/
def consumeFirst (c : Char) : List (Option Char) → List (Option Char)
  | [] => []
  | x :: xs => if x = some c then none :: xs else x :: consumeFirst c xs

/-- Second pass of the simulator, walking the (guess letter, feedback) slots
left by the first pass while consuming target letters: an unconsumed guess
letter still present among the unconsumed target letters is marked `1` and
consumes its first remaining instance; otherwise the slot keeps its mark. -/
def pass2 : List (Option Char × Nat) → List (Option Char) →
    List Nat × List (Option Char)
  | [], tl => ([], tl)
  | (w, f) :: rest, tl =>
    match w with
    | none =>
      let r := pass2 rest tl
      (f :: r.1, r.2)
    | some c =>
      if (some c) ∈ tl then
        let r := pass2 rest (consumeFirst c tl)
        (1 :: r.1, r.2)
      else
        let r := pass2 rest tl
        (f :: r.1, r.2)

/-- One position after the first pass: an exact match consumes both letters
and is marked `2`; otherwise both letters stay live with mark `0`. -/
def pass1Slot (p : Char × Char) : Option Char × Option Char × Nat :=
  if p.1 = p.2 then (none, none, 2) else (some p.1, some p.2, 0)

/-- The feedback pattern `evaluate_word` computes for one `target`: first
pass marks exact matches, second pass marks leftovers. -/
def evaluate_pattern (word target : Word) : List Nat :=
  let z := (word.zip target).map pass1Slot
  (pass2 (z.map (fun t => (t.1, t.2.2))) (z.map (fun t => t.2.1))).1

/-- `evaluate_word`: tally the pattern of `word` against every possible
target and return the largest tally (`max` over the pattern dictionary's
values; the maximum over all occurrences equals the maximum over the
distinct patterns). -/
def evaluate_word (word : Word) (possible_words : List Word) : Nat :=
  let pats := possible_words.map (fun target => evaluate_pattern word target)
  (pats.map (fun p => pats.count p)).foldl max 0

/-! ### GuessSelector: `get_best_guess` -/

/-- The scan loop of `get_best_guess`: starting from `best_word = candidates[0]`
and `best_score = inf` (modelled as `none`), replace the best on a strictly
smaller score. -/
def bestStep (possible : List Word) (acc : Word × Option Nat) (candidate : Word) :
    Word × Option Nat :=
  let score := evaluate_word candidate possible
  match acc.2 with
  | none => (candidate, some score)
  | some best => if score < best then (candidate, some score) else acc

/-- `get_best_guess` (the unused `all_words` parameter is kept from the
source).  Python's `possible_words[0]` presumes a non-empty list; `headD`
makes it total. -/
def get_best_guess (possible_words all_words : List Word) : Word :=
  if possible_words.length ≤ 2 then possible_words.headD []
  else
    let limit := min 50 possible_words.length
    let candidates := possible_words.take limit
    (candidates.foldl (bestStep possible_words) (candidates.headD [], none)).1

/-! ### GameLoop: `solve_wordle` -/

/-- Terminal states of `solve_wordle`'s round loop. -/
inductive Outcome where
  /-- "Словарь пуст или не найден": empty dictionary, game aborted. -/
  | emptyDict : Outcome
  /-- "нет возможных слов после фильтрации" at a round start. -/
  | exhausted : Outcome
  /-- "Угадал!": the word was found. -/
  | solved (w : Word) : Outcome
  /-- Round 6 report: a suggested remaining guess and all remaining words. -/
  | givenUp (g : Word) (remaining : List Word) : Outcome
  /-- Round 6's filtering left nothing. -/
  | exhaustedAtEnd : Outcome
deriving DecidableEq

/-- The guess chosen in round `attempt`: round 1 uses the configured first
guess when it is in the dictionary, otherwise the first candidate; later
rounds ask `get_best_guess`. -/
def roundGuess (all_words : List Word) (first_guess : Word)
    (possible : List Word) (attempt : Nat) : Word :=
  if attempt = 1 then
    if first_guess ∈ all_words then first_guess else possible.headD []
  else get_best_guess possible all_words

/-- The all-green feedback string `"22222"`. -/
def allCorrect : List Char := ['2', '2', '2', '2', '2']

/-- The `for attempt in range(1, 7)` loop of `solve_wordle`.  `fuel` is the
number of loop iterations still available (6 at entry, so `fuel + attempt = 7`
throughout); the oracle maps an attempt number and the displayed guess to the
human feedback string.  The returned `Nat` counts the rounds in which
feedback was requested. -/
def solveFrom (oracle : Nat → Word → List Char) (all_words : List Word)
    (first_guess : Word) : Nat → Nat → List Word → Outcome × Nat
  | 0, _, _ => (.exhaustedAtEnd, 0)
  | fuel + 1, attempt, possible =>
    if possible.length = 0 then (.exhausted, 0)
    else if possible.length = 1 then (.solved (possible.headD []), 0)
    else
      let current_guess := roundGuess all_words first_guess possible attempt
      let feedback := oracle attempt current_guess
      if feedback = allCorrect then (.solved current_guess, 1)
      else
        let possible' := filter_words possible current_guess feedback
        if attempt = 6 then
          if 1 ≤ possible'.length then (.givenUp (possible'.headD []) possible', 1)
          else (.exhaustedAtEnd, 1)
        else
          let r := solveFrom oracle all_words first_guess fuel (attempt + 1) possible'
          (r.1, r.2 + 1)

/-- `solve_wordle`, over an already-loaded dictionary: abort on an empty
dictionary, else normalize the first guess and run rounds 1..6 starting from
the full dictionary. -/
def solve_wordle (oracle : Nat → Word → List Char) (all_words : List Word)
    (first_guess : Word) : Outcome × Nat :=
  if all_words = [] then (.emptyDict, 0)
  else solveFrom oracle all_words (normalize_word first_guess) 6 1 all_words

/-- The digit string shown for a simulated pattern (`2`/`1`/`0` per mark),
the format in which the oracle's feedback reaches `filter_words`. -/
def patternToFeedback (p : List Nat) : List Char :=
  p.map (fun n => if n = 2 then '2' else if n = 1 then '1' else '0')

/-! ### Helper lemmas -/

theorem zip_self_eq_map (w : Word) : w.zip w = w.map (fun c => (c, c)) := by
  induction w with
  | nil => rfl
  | cons c cs ih => simp [List.zip_cons_cons, ih]

theorem pass2_all_none (fs : List Nat) (tl : List (Option Char)) :
    pass2 (fs.map (fun f => ((none : Option Char), f))) tl = (fs, tl) := by
  induction fs generalizing tl with
  | nil => rfl
  | cons f fs ih => simp [pass2, ih]

theorem keeps_word_of_mem_filter {words : List Word} {guess : Word}
    {feedback : List Char} {w : Word} (hw : w ∈ filter_words words guess feedback) :
    keeps_word guess feedback w = true :=
  (List.mem_filter.mp hw).2

/-- The (unconsumed guess letter, mark) slot pass 1 leaves at one position. -/
def pass1Pair (p : Char × Char) : Option Char × Nat :=
  if p.1 = p.2 then (none, 2) else (some p.1, 0)

/-- The unconsumed target letter pass 1 leaves at one position. -/
def pass1Tl (p : Char × Char) : Option Char :=
  if p.1 = p.2 then none else some p.2

theorem evaluate_pattern_eq (g s : Word) :
    evaluate_pattern g s =
      (pass2 ((g.zip s).map pass1Pair) ((g.zip s).map pass1Tl)).1 := by
  simp only [evaluate_pattern, List.map_map]
  have h1 : ((fun t : Option Char × Option Char × Nat => (t.1, t.2.2)) ∘ pass1Slot) =
      pass1Pair := by
    funext p
    by_cases hp : p.1 = p.2 <;> simp [Function.comp, pass1Slot, pass1Pair, hp]
  have h2 : ((fun t : Option Char × Option Char × Nat => t.2.1) ∘ pass1Slot) =
      pass1Tl := by
    funext p
    by_cases hp : p.1 = p.2 <;> simp [Function.comp, pass1Slot, pass1Tl, hp]
  rw [h1, h2]

theorem pass2_length (rest : List (Option Char × Nat)) (tl : List (Option Char)) :
    (pass2 rest tl).1.length = rest.length := by
  induction rest generalizing tl with
  | nil => rfl
  | cons p rest ih =>
    obtain ⟨w, f⟩ := p
    cases w with
    | none => simp [pass2, ih]
    | some c =>
      by_cases hmem : (some c) ∈ tl
      · simp [pass2, hmem, ih]
      · simp [pass2, hmem, ih]

theorem count_consumeFirst_self (c : Char) (tl : List (Option Char))
    (h : (some c) ∈ tl) :
    (consumeFirst c tl).count (some c) + 1 = tl.count (some c) := by
  induction tl with
  | nil => simp at h
  | cons x tl ih =>
    simp only [consumeFirst]
    by_cases hx : x = some c
    · rw [if_pos hx, hx]
      simp [List.count_cons]
    · rw [if_neg hx]
      have hmem : (some c) ∈ tl := by
        rcases List.mem_cons.mp h with h1 | h1
        · exact absurd h1.symm hx
        · exact h1
      have hrec := ih hmem
      rw [List.count_cons, List.count_cons]
      omega

theorem count_consumeFirst_ne (c L : Char) (hne : c ≠ L)
    (tl : List (Option Char)) :
    (consumeFirst c tl).count (some L) = tl.count (some L) := by
  induction tl with
  | nil => rfl
  | cons x tl ih =>
    simp only [consumeFirst]
    by_cases hx : x = some c
    · rw [if_pos hx, hx]
      simp [List.count_cons, hne]
    · rw [if_neg hx]
      rw [List.count_cons, List.count_cons, ih]

theorem pass2_ones_count (L : Char) (zs : List (Char × Char))
    (tl : List (Option Char)) :
    (((zs.map Prod.fst).zip (pass2 (zs.map pass1Pair) tl).1).filter
        (fun q => q.1 = L && q.2 = 1)).length
      + ((pass2 (zs.map pass1Pair) tl).2).count (some L) = tl.count (some L) := by
  induction zs generalizing tl with
  | nil => simp [pass2]
  | cons p zs ih =>
    rw [List.map_cons, List.map_cons]
    by_cases hp : p.1 = p.2
    · have hpair : pass1Pair p = (none, 2) := by rw [pass1Pair, if_pos hp]
      rw [hpair]
      simp only [pass2, List.zip_cons_cons, List.filter_cons]
      have hhead : ((p.1 = L && (2 : Nat) = 1) : Bool) = false := by simp
      rw [hhead]
      simpa using ih tl
    · have hpair : pass1Pair p = (some p.1, 0) := by rw [pass1Pair, if_neg hp]
      rw [hpair]
      by_cases hmem : (some p.1) ∈ tl
      · simp only [pass2, if_pos hmem, List.zip_cons_cons]
        by_cases hL : p.1 = L
        · subst hL
          rw [List.filter_cons_of_pos (by simp)]
          have hcount := count_consumeFirst_self p.1 tl hmem
          have hih := ih (consumeFirst p.1 tl)
          simp only [List.length_cons]
          omega
        · rw [List.filter_cons_of_neg (by simp [hL])]
          have hih := ih (consumeFirst p.1 tl)
          rw [count_consumeFirst_ne p.1 L hL tl] at hih
          exact hih
      · simp only [pass2, if_neg hmem, List.zip_cons_cons]
        rw [List.filter_cons_of_neg (by simp)]
        exact ih tl

theorem pass1_tl_count (L : Char) (zs : List (Char × Char)) :
    ((zs.map pass1Tl).count (some L))
      + (zs.filter (fun p => p.1 = L && p.1 = p.2)).length
      = (zs.map Prod.snd).count L := by
  induction zs with
  | nil => rfl
  | cons p zs ih =>
    by_cases hp : p.1 = p.2
    · have htl : pass1Tl p = none := by rw [pass1Tl, if_pos hp]
      rw [List.map_cons, List.map_cons, htl, List.count_cons, List.count_cons]
      by_cases hL : p.1 = L
      · rw [List.filter_cons_of_pos
          (by simp only [Bool.and_eq_true, decide_eq_true_eq]; exact ⟨hL, hp⟩)]
        have hsnd : p.2 = L := by rw [← hp, hL]
        have h2 : (Prod.snd p == L) = true := by simp [hsnd]
        have h3 : ((none : Option Char) == some L) = false := by simp
        rw [h2, h3, List.length_cons]
        simp only [if_true]
        simp
        omega
      · rw [List.filter_cons_of_neg (by simp [hL])]
        have hsnd : ¬p.2 = L := by
          rw [← hp]
          exact hL
        have h2 : (Prod.snd p == L) = false := by simp [hsnd]
        have h3 : ((none : Option Char) == some L) = false := by simp
        rw [h2, h3]
        simpa using ih
    · have htl : pass1Tl p = some p.2 := by rw [pass1Tl, if_neg hp]
      rw [List.map_cons, List.map_cons, htl, List.count_cons, List.count_cons]
      rw [List.filter_cons_of_neg (by simp [hp])]
      by_cases hL : p.2 = L
      · have h2 : ((some p.2 : Option Char) == some L) = true := by simp [hL]
        have h3 : (Prod.snd p == L) = true := by simp [hL]
        rw [h2, h3]
        simp only [if_true]
        omega
      · have h2 : ((some p.2 : Option Char) == some L) = false := by simp [hL]
        have h3 : (Prod.snd p == L) = false := by simp [hL]
        rw [h2, h3]
        simpa using ih

theorem pass2_two_iff (zs : List (Char × Char)) (tl : List (Option Char))
    (i : Nat) :
    ((pass2 (zs.map pass1Pair) tl).1.getD i 0 = 2) ↔
      ((zs.getD i ('a', 'b')).1 = (zs.getD i ('a', 'b')).2) := by
  induction zs generalizing tl i with
  | nil => simp [pass2]
  | cons p zs ih =>
    cases i with
    | zero =>
      by_cases hp : p.1 = p.2
      · have hpair : pass1Pair p = (none, 2) := by rw [pass1Pair, if_pos hp]
        rw [List.map_cons, hpair]
        simp [pass2, hp]
      · have hpair : pass1Pair p = (some p.1, 0) := by rw [pass1Pair, if_neg hp]
        rw [List.map_cons, hpair]
        by_cases hmem : (some p.1) ∈ tl
        · simp [pass2, if_pos hmem, hp]
        · simp [pass2, if_neg hmem, hp]
    | succ i =>
      by_cases hp : p.1 = p.2
      · have hpair : pass1Pair p = (none, 2) := by rw [pass1Pair, if_pos hp]
        rw [List.map_cons, hpair]
        simpa [pass2] using ih tl i
      · have hpair : pass1Pair p = (some p.1, 0) := by rw [pass1Pair, if_neg hp]
        rw [List.map_cons, hpair]
        by_cases hmem : (some p.1) ∈ tl
        · simpa [pass2, if_pos hmem] using ih (consumeFirst p.1 tl) i
        · simpa [pass2, if_neg hmem] using ih tl i

/-- Specification of `get_best_guess`'s scan loop: the earliest element (of
`b :: cs`) attaining the minimal value of `f`, the strict comparison keeping
the incumbent on ties. -/
def firstArgmin (f : Word → Nat) : Word → List Word → Word
  | b, [] => b
  | b, c :: cs => if f c < f b then firstArgmin f c cs else firstArgmin f b cs

theorem foldl_bestStep_eq (possible : List Word) (cs : List Word) (b : Word) :
    cs.foldl (bestStep possible) (b, some (evaluate_word b possible))
      = (firstArgmin (fun w => evaluate_word w possible) b cs,
          some (evaluate_word
            (firstArgmin (fun w => evaluate_word w possible) b cs) possible)) := by
  induction cs generalizing b with
  | nil => rfl
  | cons c cs ih =>
    rw [List.foldl_cons]
    by_cases hc : evaluate_word c possible < evaluate_word b possible
    · have hstep : bestStep possible (b, some (evaluate_word b possible)) c
          = (c, some (evaluate_word c possible)) := by
        simp [bestStep, hc]
      rw [hstep, ih c]
      simp only [firstArgmin, if_pos hc]
    · have hstep : bestStep possible (b, some (evaluate_word b possible)) c
          = (b, some (evaluate_word b possible)) := by
        simp [bestStep, hc]
      rw [hstep, ih b]
      simp only [firstArgmin, if_neg hc]

theorem foldl_bestStep_none (possible : List Word) (x c0 : Word)
    (rest : List Word) :
    ((c0 :: rest).foldl (bestStep possible) (x, none)).1
      = firstArgmin (fun w => evaluate_word w possible) c0 rest := by
  rw [List.foldl_cons]
  have hstep : bestStep possible (x, none) c0
      = (c0, some (evaluate_word c0 possible)) := rfl
  rw [hstep, foldl_bestStep_eq]

theorem firstArgmin_le (f : Word → Nat) (b : Word) (cs : List Word) :
    ∀ x ∈ b :: cs, f (firstArgmin f b cs) ≤ f x := by
  induction cs generalizing b with
  | nil =>
    intro x hx
    rcases List.mem_cons.mp hx with h | h
    · subst h
      exact Nat.le_refl _
    · simp at h
  | cons c cs ih =>
    intro x hx
    by_cases hc : f c < f b
    · simp only [firstArgmin, if_pos hc]
      rcases List.mem_cons.mp hx with h | h
      · subst h
        have h1 := ih c c (List.mem_cons_self c cs)
        omega
      · exact ih c x h
    · simp only [firstArgmin, if_neg hc]
      rcases List.mem_cons.mp hx with h | h
      · subst h
        exact ih x x (List.mem_cons_self x cs)
      · rcases List.mem_cons.mp h with h1 | h1
        · subst h1
          have hb := ih b b (List.mem_cons_self b cs)
          omega
        · exact ih b x (List.mem_cons_of_mem b h1)

theorem firstArgmin_first (f : Word → Nat) (b : Word) (cs : List Word) :
    (b :: cs).find? (fun x => f x ≤ f (firstArgmin f b cs))
      = some (firstArgmin f b cs) := by
  induction cs generalizing b with
  | nil =>
    simp [firstArgmin]
  | cons c cs ih =>
    by_cases hc : f c < f b
    · simp only [firstArgmin, if_pos hc]
      have hmin := firstArgmin_le f c cs c (List.mem_cons_self c cs)
      have hb : (decide (f b ≤ f (firstArgmin f c cs))) = false := by
        simp only [decide_eq_false_iff_not]
        omega
      rw [List.find?_cons, hb]
      exact ih c
    · simp only [firstArgmin, if_neg hc]
      have hIH := ih b
      by_cases hb : f b ≤ f (firstArgmin f b cs)
      · have hbtrue : (decide (f b ≤ f (firstArgmin f b cs))) = true := by
          simp only [decide_eq_true_eq]
          exact hb
        rw [List.find?_cons, hbtrue] at hIH ⊢
        exact hIH
      · have hbfalse : (decide (f b ≤ f (firstArgmin f b cs))) = false := by
          simp only [decide_eq_false_iff_not]
          exact hb
        rw [List.find?_cons, hbfalse] at hIH ⊢
        have hrb := firstArgmin_le f b cs b (List.mem_cons_self b cs)
        have hcfalse : (decide (f c ≤ f (firstArgmin f b cs))) = false := by
          simp only [decide_eq_false_iff_not]
          omega
        rw [List.find?_cons, hcfalse]
        exact hIH

theorem solveFrom_rounds_le (oracle : Nat → Word → List Char)
    (all_words : List Word) (first_guess : Word) :
    ∀ fuel attempt possible,
      (solveFrom oracle all_words first_guess fuel attempt possible).2 ≤ fuel := by
  intro fuel
  induction fuel with
  | zero =>
    intro attempt possible
    simp [solveFrom]
  | succ fuel ih =>
    intro attempt possible
    by_cases h0 : possible.length = 0
    · simp [solveFrom, h0]
    · by_cases h1 : possible.length = 1
      · simp [solveFrom, h0, h1]
      · by_cases ha : attempt = 6
        · subst ha
          by_cases hfb : oracle 6 (roundGuess all_words first_guess possible 6)
              = allCorrect
          · simp [solveFrom, h0, h1, hfb]
          · by_cases hlen : 1 ≤ (filter_words possible
                (roundGuess all_words first_guess possible 6)
                (oracle 6 (roundGuess all_words first_guess possible 6))).length
            · simp [solveFrom, h0, h1, hfb, hlen]
            · simp [solveFrom, h0, h1, hfb, hlen]
        · by_cases hfb : oracle attempt (roundGuess all_words first_guess possible attempt)
              = allCorrect
          · simp [solveFrom, h0, h1, hfb]
          · have hrec := ih (attempt + 1)
              (filter_words possible
                (roundGuess all_words first_guess possible attempt)
                (oracle attempt (roundGuess all_words first_guess possible attempt)))
            simp [solveFrom, h0, h1, hfb, ha]
            omega

/-! ### Claim theorems -/

/-- C7: for every 5-letter word `w`, simulating `w` against itself yields the
all-CORRECT_POSITION pattern. -/
theorem evaluate_pattern_self_all_correct (w : Word) (h : w.length = 5) :
    evaluate_pattern w w = [2, 2, 2, 2, 2] := by
  have hz : (w.zip w).map pass1Slot =
      List.replicate w.length (((none : Option Char), (none : Option Char), (2 : Nat))) := by
    rw [zip_self_eq_map, List.map_map]
    have hc : (pass1Slot ∘ fun c : Char => (c, c)) =
        fun _ => ((none : Option Char), (none : Option Char), (2 : Nat)) := by
      funext c
      simp [Function.comp, pass1Slot]
    rw [hc, List.map_const']
  have h1 : ((w.zip w).map pass1Slot).map (fun t => (t.1, t.2.2)) =
      (List.replicate w.length (2 : Nat)).map (fun f => ((none : Option Char), f)) := by
    rw [hz, List.map_replicate, List.map_replicate]
  have h2 : ((w.zip w).map pass1Slot).map (fun t => t.2.1) =
      List.replicate w.length (none : Option Char) := by
    rw [hz, List.map_replicate]
  simp only [evaluate_pattern]
  rw [h1, h2, pass2_all_none, h]
  rfl

theorem evaluate_pattern_self_all_correct_witness :
    ("абвгд".toList.length = 5) ∧ evaluate_pattern "абвгд".toList "абвгд".toList = [2, 2, 2, 2, 2] :=
  ⟨by decide, evaluate_pattern_self_all_correct "абвгд".toList (by decide)⟩

/-- C5: the filtered list only keeps words from the input (no mutation can
occur in this pure model), and the guess itself never survives. -/
theorem filter_words_subset_and_excludes_guess (words : List Word)
    (guess : Word) (feedback : List Char) :
    (∀ w ∈ filter_words words guess feedback, w ∈ words) ∧
      guess ∉ filter_words words guess feedback := by
  constructor
  · intro w hw
    exact (List.mem_filter.mp hw).1
  · intro hg
    have := keeps_word_of_mem_filter hg
    simp [keeps_word] at this

theorem filter_words_subset_and_excludes_guess_witness :
    ("осень".toList ∈ filter_words ["осень".toList, "опера".toList] "опера".toList
        ['2', '0', '2', '0', '0'] →
      "осень".toList ∈ ["осень".toList, "опера".toList]) ∧
      "опера".toList ∉ filter_words ["осень".toList, "опера".toList] "опера".toList
        ['2', '0', '2', '0', '0'] :=
  ⟨fun hw => (filter_words_subset_and_excludes_guess ["осень".toList, "опера".toList]
      "опера".toList ['2', '0', '2', '0', '0']).1 _ hw,
    (filter_words_subset_and_excludes_guess ["осень".toList, "опера".toList]
      "опера".toList ['2', '0', '2', '0', '0']).2⟩

/-- C6: filtering by the feedbacks two distinct guesses receive against one
fixed secret commutes: `filter_words` keeps exactly the words satisfying a
per-word predicate, so the two filters compose in either order. -/
theorem filter_words_order_independent (ws : List Word) (A B s : Word)
    (hAB : A ≠ B) :
    filter_words (filter_words ws A (patternToFeedback (evaluate_pattern A s)))
        B (patternToFeedback (evaluate_pattern B s)) =
      filter_words (filter_words ws B (patternToFeedback (evaluate_pattern B s)))
        A (patternToFeedback (evaluate_pattern A s)) := by
  unfold filter_words
  rw [List.filter_filter, List.filter_filter]
  simp [Bool.and_comm]

theorem filter_words_order_independent_witness :
    ("опера".toList ≠ "охота".toList) ∧
      filter_words (filter_words ["облик".toList, "огонь".toList, "опера".toList,
          "осень".toList, "охота".toList] "опера".toList
          (patternToFeedback (evaluate_pattern "опера".toList "осень".toList)))
        "охота".toList (patternToFeedback (evaluate_pattern "охота".toList "осень".toList)) =
      filter_words (filter_words ["облик".toList, "огонь".toList, "опера".toList,
          "осень".toList, "охота".toList] "охота".toList
          (patternToFeedback (evaluate_pattern "охота".toList "осень".toList)))
        "опера".toList (patternToFeedback (evaluate_pattern "опера".toList "осень".toList)) :=
  ⟨by decide, filter_words_order_independent _ "опера".toList "охота".toList
    "осень".toList (by decide)⟩

/-- C1: a word surviving `filter_words` has, for every position marked `'0'`,
at most `required_counts` occurrences of that position's guess letter, the
required count being computed from the guess and feedback alone. -/
theorem filter_words_absent_within_required_count (words : List Word)
    (guess : Word) (feedback : List Char) (w : Word)
    (hw : w ∈ filter_words words guess feedback) (i : Nat) (hi : i < 5)
    (habs : feedback.getD i ' ' = '0') :
    w.count (guess.getD i ' ') ≤ required_counts guess feedback (guess.getD i ' ') := by
  have h := keeps_word_of_mem_filter hw
  simp only [keeps_word, Bool.and_eq_true] at h
  have h3 := h.2
  rw [passes_count_checks, List.all_eq_true] at h3
  have h4 := h3 i (List.mem_range.mpr hi)
  rw [habs] at h4
  simpa using h4

theorem filter_words_absent_within_required_count_witness :
    ("aeeee".toList ∈ filter_words ["aeeee".toList] "aabcd".toList
        ['2', '0', '0', '0', '0']) ∧ (1 < 5) ∧
      (['2', '0', '0', '0', '0'].getD 1 ' ' = '0') ∧
      "aeeee".toList.count ("aabcd".toList.getD 1 ' ') ≤
        required_counts "aabcd".toList ['2', '0', '0', '0', '0']
          ("aabcd".toList.getD 1 ' ') :=
  ⟨by decide, by decide, by decide,
    filter_words_absent_within_required_count ["aeeee".toList] "aabcd".toList
      ['2', '0', '0', '0', '0'] "aeeee".toList (by decide) 1 (by decide) (by decide)⟩

/-- C2: the simulator marks position `i` CORRECT_POSITION (2) exactly when
guess and secret agree there, and for each letter `L` the PRESENT_ELSEWHERE
(1) marks on `L` plus the exact matches on `L` never exceed `L`'s count in
the secret (no letter inflation). -/
theorem evaluate_pattern_exact_and_no_inflation (g s : Word)
    (hg : g.length = 5) (hs : s.length = 5) :
    (∀ i, i < 5 →
      ((evaluate_pattern g s).getD i 0 = 2 ↔ g.getD i ' ' = s.getD i ' ')) ∧
    (∀ L : Char,
      ((g.zip (evaluate_pattern g s)).filter (fun p => p.1 = L && p.2 = 1)).length
        + ((g.zip s).filter (fun p => p.1 = L && p.1 = p.2)).length
        ≤ s.count L) := by
  have hzl : (g.zip s).length = 5 := by
    rw [List.length_zip, hg, hs]
    rfl
  constructor
  · intro i hi
    rw [evaluate_pattern_eq, pass2_two_iff]
    have h1 : (g.zip s).getD i ('a', 'b') = (g.getD i ' ', s.getD i ' ') := by
      rw [List.getD_eq_getElem _ _ (by omega : i < (g.zip s).length),
        List.getD_eq_getElem _ _ (by omega : i < g.length),
        List.getD_eq_getElem _ _ (by omega : i < s.length)]
      simp [List.getElem_zip]
    rw [h1]
  · intro L
    have key := pass2_ones_count L (g.zip s) ((g.zip s).map pass1Tl)
    have z1 := pass1_tl_count L (g.zip s)
    rw [List.map_fst_zip g s (by omega)] at key
    rw [List.map_snd_zip g s (by omega)] at z1
    rw [evaluate_pattern_eq]
    omega

theorem evaluate_pattern_exact_and_no_inflation_witness :
    ("аабвг".toList.length = 5) ∧ ("аддда".toList.length = 5) ∧
    ((evaluate_pattern "аабвг".toList "аддда".toList).getD 0 0 = 2 ↔
      "аабвг".toList.getD 0 ' ' = "аддда".toList.getD 0 ' ') ∧
    ((("аабвг".toList.zip (evaluate_pattern "аабвг".toList "аддда".toList)).filter
        (fun p => p.1 = 'а' && p.2 = 1)).length
      + (("аабвг".toList.zip "аддда".toList).filter
        (fun p => p.1 = 'а' && p.1 = p.2)).length ≤ "аддда".toList.count 'а') :=
  ⟨by decide, by decide,
    (evaluate_pattern_exact_and_no_inflation "аабвг".toList "аддда".toList
      (by decide) (by decide)).1 0 (by decide),
    (evaluate_pattern_exact_and_no_inflation "аабвг".toList "аддда".toList
      (by decide) (by decide)).2 'а'⟩

/-- C10: `filter_words` returns a sublist of its input (relative order kept),
so filtering preserves sortedness, and `get_nouns` loads the dictionary
sorted; hence the candidate list stays in dictionary order every round. -/
theorem filter_words_sublist_and_sorted (words : List Word) (guess : Word)
    (feedback : List Char) (lines : List Word) :
    (filter_words words guess feedback).Sublist words ∧
      (words.Sorted (· ≤ ·) →
        (filter_words words guess feedback).Sorted (· ≤ ·)) ∧
      (get_nouns lines).Sorted (· ≤ ·) :=
  ⟨List.filter_sublist words,
    fun hs => hs.sublist (List.filter_sublist words),
    List.sorted_insertionSort _ _⟩

theorem filter_words_sublist_and_sorted_witness :
    (["осень".toList, "охота".toList].Sorted (· ≤ ·)) ∧
      (filter_words ["осень".toList, "охота".toList] "опера".toList
          ['2', '0', '2', '0', '0']).Sublist ["осень".toList, "охота".toList] ∧
      (filter_words ["осень".toList, "охота".toList] "опера".toList
          ['2', '0', '2', '0', '0']).Sorted (· ≤ ·) :=
  ⟨by decide,
    (filter_words_sublist_and_sorted ["осень".toList, "охота".toList]
      "опера".toList ['2', '0', '2', '0', '0'] []).1,
    (filter_words_sublist_and_sorted ["осень".toList, "охота".toList]
      "опера".toList ['2', '0', '2', '0', '0'] []).2.1 (by decide)⟩

/-- C3: with at most 2 candidates the selector returns the first; otherwise it
returns a member of the first `min 50 n` candidates whose worst-case
partition size (against the FULL candidate list) is minimal, and it is the
earliest scanned candidate attaining that score (strict-improvement updates
break ties towards earlier candidates). -/
theorem get_best_guess_minimax (possible_words all_words : List Word) :
    (possible_words.length ≤ 2 →
      get_best_guess possible_words all_words = possible_words.headD []) ∧
    (2 < possible_words.length →
      get_best_guess possible_words all_words ∈
          possible_words.take (min 50 possible_words.length) ∧
      (∀ c ∈ possible_words.take (min 50 possible_words.length),
        evaluate_word (get_best_guess possible_words all_words) possible_words
          ≤ evaluate_word c possible_words) ∧
      (possible_words.take (min 50 possible_words.length)).find?
          (fun x => evaluate_word x possible_words ≤
            evaluate_word (get_best_guess possible_words all_words) possible_words)
        = some (get_best_guess possible_words all_words)) := by
  constructor
  · intro h
    rw [get_best_guess, if_pos h]
  · intro h
    have hnle : ¬ possible_words.length ≤ 2 := by omega
    obtain ⟨c0, rest, hcons⟩ : ∃ c0 rest,
        possible_words.take (min 50 possible_words.length) = c0 :: rest := by
      cases hl : possible_words.take (min 50 possible_words.length) with
      | nil =>
        have hlen := congrArg List.length hl
        rw [List.length_take] at hlen
        simp only [List.length_nil] at hlen
        omega
      | cons a l => exact ⟨a, l, rfl⟩
    have hbg : get_best_guess possible_words all_words
        = firstArgmin (fun w => evaluate_word w possible_words) c0 rest := by
      rw [get_best_guess, if_neg hnle]
      show ((possible_words.take (min 50 possible_words.length)).foldl
          (bestStep possible_words)
          ((possible_words.take (min 50 possible_words.length)).headD [], none)).1 = _
      rw [hcons]
      exact foldl_bestStep_none possible_words ((c0 :: rest).headD []) c0 rest
    refine ⟨?_, ?_, ?_⟩
    · rw [hbg, hcons]
      exact List.mem_of_find?_eq_some
        (firstArgmin_first (fun w => evaluate_word w possible_words) c0 rest)
    · intro c hcmem
      rw [hbg]
      exact firstArgmin_le (fun w => evaluate_word w possible_words) c0 rest c
        (hcons ▸ hcmem)
    · rw [hbg, hcons]
      exact firstArgmin_first (fun w => evaluate_word w possible_words) c0 rest

theorem get_best_guess_minimax_witness :
    (["абвгд".toList, "абвге".toList].length ≤ 2) ∧
    (get_best_guess ["абвгд".toList, "абвге".toList] []
      = ["абвгд".toList, "абвге".toList].headD []) ∧
    (2 < ["облик".toList, "огонь".toList, "опера".toList, "осень".toList,
        "охота".toList].length) ∧
    (evaluate_word (get_best_guess ["облик".toList, "огонь".toList,
          "опера".toList, "осень".toList, "охота".toList] [])
        ["облик".toList, "огонь".toList, "опера".toList, "осень".toList,
          "охота".toList]
      ≤ evaluate_word "опера".toList
        ["облик".toList, "огонь".toList, "опера".toList, "осень".toList,
          "охота".toList]) :=
  ⟨by decide,
    (get_best_guess_minimax ["абвгд".toList, "абвге".toList] []).1 (by decide),
    by decide,
    ((get_best_guess_minimax ["облик".toList, "огонь".toList, "опера".toList,
        "осень".toList, "охота".toList] []).2 (by decide)).2.1 "опера".toList
      (by decide)⟩

/-- C4: the game loop requests feedback in at most 6 rounds, and each round
proceeds in order: empty candidates terminate EXHAUSTED (no feedback asked);
a single candidate terminates SOLVED reporting it without further feedback;
all-correct feedback terminates SOLVED before filtering; round 6 with a
non-empty post-filter candidate list terminates GIVEN_UP reporting a
remaining guess and the full remaining list. -/
theorem solve_wordle_round_structure (oracle : Nat → Word → List Char)
    (all_words : List Word) (first_guess : Word) (fuel attempt : Nat)
    (possible : List Word) :
    (solve_wordle oracle all_words first_guess).2 ≤ 6 ∧
    (possible.length = 0 →
      solveFrom oracle all_words first_guess (fuel + 1) attempt possible
        = (.exhausted, 0)) ∧
    (possible.length = 1 →
      solveFrom oracle all_words first_guess (fuel + 1) attempt possible
        = (.solved (possible.headD []), 0)) ∧
    (2 ≤ possible.length →
      oracle attempt (roundGuess all_words first_guess possible attempt)
          = allCorrect →
      solveFrom oracle all_words first_guess (fuel + 1) attempt possible
        = (.solved (roundGuess all_words first_guess possible attempt), 1)) ∧
    (2 ≤ possible.length →
      oracle 6 (roundGuess all_words first_guess possible 6) ≠ allCorrect →
      1 ≤ (filter_words possible (roundGuess all_words first_guess possible 6)
            (oracle 6 (roundGuess all_words first_guess possible 6))).length →
      solveFrom oracle all_words first_guess (fuel + 1) 6 possible
        = (.givenUp
            ((filter_words possible (roundGuess all_words first_guess possible 6)
                (oracle 6 (roundGuess all_words first_guess possible 6))).headD [])
            (filter_words possible (roundGuess all_words first_guess possible 6)
              (oracle 6 (roundGuess all_words first_guess possible 6))), 1)) := by
  refine ⟨?_, ?_, ?_, ?_, ?_⟩
  · rw [solve_wordle]
    by_cases hd : all_words = []
    · simp [hd]
    · rw [if_neg hd]
      exact solveFrom_rounds_le oracle all_words (normalize_word first_guess) 6 1
        all_words
  · intro h0
    simp [solveFrom, h0]
  · intro h1
    simp [solveFrom, h1]
  · intro h2 hfb
    have h0 : ¬ possible.length = 0 := by omega
    have h1 : ¬ possible.length = 1 := by omega
    simp [solveFrom, h0, h1, hfb]
  · intro h2 hfb hlen
    have h0 : ¬ possible.length = 0 := by omega
    have h1 : ¬ possible.length = 1 := by omega
    simp [solveFrom, h0, h1, hfb, hlen]

theorem solve_wordle_round_structure_witness :
    (solve_wordle (fun _ _ => allCorrect) ["ааааа".toList] "опера".toList).2 ≤ 6 ∧
    solveFrom (fun _ _ => allCorrect) [] [] 3 2 [] = (.exhausted, 0) ∧
    solveFrom (fun _ _ => allCorrect) [] [] 3 2 ["ааааа".toList]
      = (.solved (["ааааа".toList].headD []), 0) ∧
    solveFrom (fun _ _ => allCorrect) [] [] 3 2 ["ааааа".toList, "ббббб".toList]
      = (.solved (roundGuess [] [] ["ааааа".toList, "ббббб".toList] 2), 1) ∧
    solveFrom (fun _ _ => ['0', '0', '0', '0', '0']) [] [] 1 6
        ["ааааа".toList, "ббббб".toList]
      = (.givenUp
          ((filter_words ["ааааа".toList, "ббббб".toList]
              (roundGuess [] [] ["ааааа".toList, "ббббб".toList] 6)
              ((fun _ _ => ['0', '0', '0', '0', '0']) 6
                (roundGuess [] [] ["ааааа".toList, "ббббб".toList] 6))).headD [])
          (filter_words ["ааааа".toList, "ббббб".toList]
            (roundGuess [] [] ["ааааа".toList, "ббббб".toList] 6)
            ((fun _ _ => ['0', '0', '0', '0', '0']) 6
              (roundGuess [] [] ["ааааа".toList, "ббббб".toList] 6))), 1) :=
  ⟨(solve_wordle_round_structure (fun _ _ => allCorrect) ["ааааа".toList]
      "опера".toList 0 0 []).1,
    (solve_wordle_round_structure (fun _ _ => allCorrect) [] [] 2 2 []).2.1 rfl,
    (solve_wordle_round_structure (fun _ _ => allCorrect) [] [] 2 2
      ["ааааа".toList]).2.2.1 rfl,
    (solve_wordle_round_structure (fun _ _ => allCorrect) [] [] 2 2
      ["ааааа".toList, "ббббб".toList]).2.2.2.1 (by decide) rfl,
    (solve_wordle_round_structure (fun _ _ => ['0', '0', '0', '0', '0']) [] [] 0 6
      ["ааааа".toList, "ббббб".toList]).2.2.2.2 (by decide) (by decide) (by decide)⟩

/-- C9: adding a word whose normalized form is already in the dictionary
reports success and leaves the dictionary file's contents unchanged (no
write is performed). -/
theorem add_word_existing_noop (word : Word) (fileLines : List Word)
    (h : normalize_word word ∈ get_nouns fileLines) :
    add_word_to_dict word fileLines = (true, fileLines) := by
  have hvalid : is_valid_five_letter_word (normalize_word word) = true := by
    have h1 : normalize_word word ∈
        ((fileLines.map normalize_word).filter
          (fun w => is_valid_five_letter_word w)).dedup :=
      (List.mem_insertionSort _).mp h
    exact (List.mem_filter.mp (List.mem_dedup.mp h1)).2
  rw [add_word_to_dict]
  simp [hvalid, h]

theorem add_word_existing_noop_witness :
    (normalize_word "Осень".toList ∈ get_nouns ["осень".toList]) ∧
      add_word_to_dict "Осень".toList ["осень".toList] = (true, ["осень".toList]) :=
  ⟨by decide, add_word_existing_noop "Осень".toList ["осень".toList] (by decide)⟩

/-- C8: in the concrete scenario, simulating guess "опера" against secret
"осень" yields pattern 20200, and filtering the five-word dictionary by that
feedback excludes the guess and leaves exactly "осень". -/
theorem concrete_scenario_opera_osen :
    evaluate_pattern "опера".toList "осень".toList = [2, 0, 2, 0, 0] ∧
      filter_words ["облик".toList, "огонь".toList, "опера".toList,
          "осень".toList, "охота".toList] "опера".toList ['2', '0', '2', '0', '0'] =
        ["осень".toList] ∧
      "опера".toList ∉ filter_words ["облик".toList, "огонь".toList, "опера".toList,
          "осень".toList, "охота".toList] "опера".toList ['2', '0', '2', '0', '0'] ∧
      "осень".toList ∈ filter_words ["облик".toList, "огонь".toList, "опера".toList,
          "осень".toList, "охота".toList] "опера".toList ['2', '0', '2', '0', '0'] := by
  refine ⟨by decide, by decide, by decide, by decide⟩

end WordleSolver
